import Mathlib

/-!
Verification of the starknet-api core: the block-signature verification
protocol (src/crypto.rs, src/block.rs), the state-diff reducer and the
SCALE-style codec of `ThinStateDiff` (src/state.rs), the entry-point-offset
serde helpers (src/deprecated_contract_class.rs) and the `GasPrice` byte
conversions (src/block.rs), shallowly embedded in Lean.

Machine integers are modelled as `Nat` with explicit bounds where overflow
matters; fallible Rust code returns `Option`/`Except`; the external
collaborators (the poseidon hash-array primitive and the curve-signature
check of the `starknet_crypto` crate, and the per-leaf-type SCALE codecs
whose definitions live outside the embedded files) are parameters of the
embedded functions.
-/

namespace StarknetApi

/-- A Stark field element (`StarkFelt`, src/hash.rs, external to the embedded
core): modelled as the underlying natural number. -/
abbrev StarkFelt := Nat

/-- `StarkHash` is a synonym of `StarkFelt` in the source. -/
abbrev StarkHash := StarkFelt

/-- `PublicKey` (src/crypto.rs): a newtype over a field element. -/
structure PublicKey where
  key : StarkFelt
deriving DecidableEq

/-- `Signature` (src/crypto.rs): the two field elements of an ECDSA signature. -/
structure Signature where
  r : StarkFelt
  s : StarkFelt
deriving DecidableEq

/-- The error type of the external `starknet_crypto::verify` collaborator
(`starknet_crypto::VerifyError`): one variant per structurally invalid
argument, carrying no payload. -/
inductive VerifyError where
  | invalidPublicKey
  | invalidMessageHash
  | invalidR
  | invalidS
deriving DecidableEq

/-- `CryptoError` (src/crypto.rs lines 15-24): each variant carries the
offending value. -/
inductive CryptoError where
  | invalidPublicKey (k : PublicKey)
  | invalidMessageHash (h : StarkFelt)
  | invalidR (r : StarkFelt)
  | invalidS (s : StarkFelt)
deriving DecidableEq

/-- The type of the external curve-signature check, `starknet_crypto::verify`:
arguments in source order (public key, message, r, s). -/
abbrev EcdsaVerify := StarkFelt → StarkFelt → StarkFelt → StarkFelt → Except VerifyError Bool

/-- `verify_message_hash_signature` (src/crypto.rs lines 52-73): calls the
external check on `(public_key, message_hash, r, s)` and translates each
`VerifyError` variant into the `CryptoError` variant carrying the
corresponding argument, exactly as the `map_err` closure of the source. -/
def verify_message_hash_signature (ecdsaVerify : EcdsaVerify)
    (message_hash : StarkFelt) (signature : Signature) (public_key : PublicKey) :
    Except CryptoError Bool :=
  (ecdsaVerify public_key.key message_hash signature.r signature.s).mapError
    (fun err => match err with
      | .invalidPublicKey => .invalidPublicKey public_key
      | .invalidMessageHash => .invalidMessageHash message_hash
      | .invalidR => .invalidR signature.r
      | .invalidS => .invalidS signature.s)

/-- `BlockHash` (src/block.rs line 132). -/
structure BlockHash where
  hash : StarkHash
deriving DecidableEq

/-- `GlobalRoot` (src/core, external to the embedded files): a newtype over a
field element, used here as the state-diff commitment. -/
structure GlobalRoot where
  root : StarkFelt
deriving DecidableEq

/-- `SequencerPublicKey` (src/core): a newtype over `PublicKey`. -/
structure SequencerPublicKey where
  pk : PublicKey
deriving DecidableEq

/-- `BlockSignature` (src/block.rs line 234): a newtype over `Signature`. -/
structure BlockSignature where
  sig : Signature
deriving DecidableEq

/-- `BlockVerificationError` (src/block.rs lines 243-246). -/
inductive BlockVerificationError where
  | blockSignatureVerificationFailed (block_hash : BlockHash) (error : CryptoError)
deriving DecidableEq

/-- `verify_block_signature` (src/block.rs lines 249-262): computes
`message_hash = poseidon_hash_array([block_hash, state_diff_commitment])`
(the external hash primitive is the `poseidon_hash_array` parameter) and
delegates to `verify_message_hash_signature`, wrapping any error. -/
def verify_block_signature (poseidon_hash_array : List StarkHash → StarkHash)
    (ecdsaVerify : EcdsaVerify) (sequencer_pub_key : SequencerPublicKey)
    (signature : BlockSignature) (state_diff_commitment : GlobalRoot)
    (block_hash : BlockHash) : Except BlockVerificationError Bool :=
  let message_hash := poseidon_hash_array [block_hash.hash, state_diff_commitment.root]
  (verify_message_hash_signature ecdsaVerify message_hash signature.sig
      sequencer_pub_key.pk).mapError
    (fun err => .blockSignatureVerificationFailed block_hash err)

/-! ## The insertion-ordered map (`indexmap::IndexMap`)

An `IndexMap` is modelled as its iteration sequence of key-value pairs.
`insertEntry` follows `IndexMap::insert`: an existing key keeps its position
and receives the new value, a new key is appended; `collectPairs` is
`FromIterator`, a left fold of inserts starting from the empty map. -/

/-- One `IndexMap::insert` step on the iteration sequence. -/
def insertEntry {K V : Type} [DecidableEq K] (m : List (K × V)) (k : K) (v : V) :
    List (K × V) :=
  if k ∈ m.map Prod.fst then
    m.map (fun p => if p.1 = k then (k, v) else p)
  else m ++ [(k, v)]

/-- `FromIterator for IndexMap`: fold the pairs through `insertEntry`. -/
def collectPairs {K V : Type} [DecidableEq K] (l : List (K × V)) : List (K × V) :=
  l.foldl (fun m p => insertEntry m p.1 p.2) []

/-- Insertion-ordered map, as its iteration sequence. -/
structure IndexMap (K V : Type) where
  entries : List (K × V)
deriving DecidableEq

/-- The keys of an `IndexMap`, in iteration order (`IndexMap::keys`). -/
def IndexMap.keys {K V : Type} (m : IndexMap K V) : List K :=
  m.entries.map Prod.fst

/-- `collect` of an iterator of pairs into an `IndexMap`. -/
def IndexMap.ofPairs {K V : Type} [DecidableEq K] (l : List (K × V)) : IndexMap K V :=
  ⟨collectPairs l⟩

/-- The `IndexMap` invariant: keys are pairwise distinct. Every `IndexMap`
built by the Rust crate satisfies it. -/
def IndexMap.NodupKeys {K V : Type} (m : IndexMap K V) : Prop :=
  m.keys.Nodup

instance {K V : Type} [DecidableEq K] (m : IndexMap K V) :
    Decidable m.NodupKeys := by
  unfold IndexMap.NodupKeys
  infer_instance

theorem insertEntry_of_not_mem {K V : Type} [DecidableEq K]
    (m : List (K × V)) (k : K) (v : V) (h : k ∉ m.map Prod.fst) :
    insertEntry m k v = m ++ [(k, v)] := by
  simp [insertEntry, h]

/-- Folding inserts of pairwise-fresh keys onto an accumulator appends them. -/
theorem foldl_insertEntry_append {K V : Type} [DecidableEq K]
    (l : List (K × V)) :
    ∀ acc : List (K × V),
      (l.map Prod.fst).Nodup →
      (∀ k, k ∈ l.map Prod.fst → k ∉ acc.map Prod.fst) →
      l.foldl (fun m p => insertEntry m p.1 p.2) acc = acc ++ l := by
  induction l with
  | nil => intro acc _ _; simp
  | cons p t ih =>
    intro acc hnd hdisj
    have hp : p.1 ∉ acc.map Prod.fst := hdisj p.1 (by simp)
    have hstep : insertEntry acc p.1 p.2 = acc ++ [(p.1, p.2)] :=
      insertEntry_of_not_mem acc p.1 p.2 hp
    rw [List.map_cons] at hnd
    have hnd' : (t.map Prod.fst).Nodup := (List.nodup_cons.mp hnd).2
    have hfresh : p.1 ∉ t.map Prod.fst := (List.nodup_cons.mp hnd).1
    have hdisj' : ∀ k, k ∈ t.map Prod.fst → k ∉ (acc ++ [(p.1, p.2)]).map Prod.fst := by
      intro k hk
      simp only [List.map_append, List.mem_append, List.map_cons, List.map_nil,
        List.mem_singleton, not_or]
      constructor
      · exact hdisj k (by simp [hk])
      · intro hkp
        exact hfresh (by simpa [hkp] using hk)
    calc (p :: t).foldl (fun m q => insertEntry m q.1 q.2) acc
        = t.foldl (fun m q => insertEntry m q.1 q.2) (acc ++ [(p.1, p.2)]) := by
          simp [hstep]
      _ = (acc ++ [(p.1, p.2)]) ++ t := ih (acc ++ [(p.1, p.2)]) hnd' hdisj'
      _ = acc ++ p :: t := by simp

/-- Collecting a pair list with pairwise-distinct keys returns it unchanged. -/
theorem collectPairs_eq_self {K V : Type} [DecidableEq K]
    (l : List (K × V)) (h : (l.map Prod.fst).Nodup) : collectPairs l = l := by
  have := foldl_insertEntry_append l [] h (by simp)
  simpa [collectPairs] using this

/-! ## State-diff types (src/state.rs) -/

/-- `ContractAddress` (src/core, external): a Patricia-key newtype. -/
structure ContractAddress where
  address : Nat
deriving DecidableEq

/-- `ClassHash` (src/core, external): a field-element newtype. -/
structure ClassHash where
  hash : StarkHash
deriving DecidableEq

/-- `CompiledClassHash` (src/core, external): a field-element newtype. -/
structure CompiledClassHash where
  hash : StarkHash
deriving DecidableEq

/-- `Nonce` (src/core, external): a field-element newtype. -/
structure Nonce where
  nonce : StarkFelt
deriving DecidableEq

/-- `StorageKey` (src/state.rs line 328): a Patricia-key newtype. -/
structure StorageKey where
  key : Nat
deriving DecidableEq

/-- `EntryPointSelector` (src/core, external): a field-element newtype. -/
structure EntryPointSelector where
  selector : StarkFelt
deriving DecidableEq

/-- `EntryPointType` (src/state.rs lines 424-435). -/
inductive EntryPointType where
  | constructor
  | external
  | l1Handler
deriving DecidableEq

/-- `FunctionIndex` (src/state.rs line 457). -/
structure FunctionIndex where
  idx : Nat
deriving DecidableEq

/-- `EntryPoint` of a sierra class (src/state.rs lines 444-447). -/
structure EntryPoint where
  function_idx : FunctionIndex
  selector : EntryPointSelector
deriving DecidableEq

/-- `ContractClass` — a sierra class body (src/state.rs lines 354-358). -/
structure ContractClass where
  sierra_program : List StarkFelt
  entry_points_by_type : IndexMap EntryPointType (List EntryPoint)
  abi : String
deriving DecidableEq

/-- A JSON value (`serde_json::Value`); numbers are modelled as integers,
which covers every value the embedded code inspects. -/
inductive Json where
  | null
  | boolVal (b : Bool)
  | numVal (n : Int)
  | strVal (s : String)
  | arrVal (elems : List Json)
  | objVal (fields : List (String × Json))

/-- `Program` of a deprecated class (src/deprecated_contract_class.rs lines
161-175): ten loosely-schematized JSON fields. -/
structure Program where
  attributes : Json
  builtins : Json
  compiler_version : Json
  data : Json
  debug_info : Json
  hints : Json
  identifiers : Json
  main_scope : Json
  prime : Json
  reference_manager : Json

/-- `EntryPointOffset` (src/deprecated_contract_class.rs lines 275-277):
a `u64` newtype, modelled as `Nat` (bounds stated where they matter). -/
structure EntryPointOffset where
  offset : Nat
deriving DecidableEq

/-- `EntryPoint` of a deprecated class (src/deprecated_contract_class.rs
lines 238-241). -/
structure DeprecatedEntryPoint where
  selector : EntryPointSelector
  offset : EntryPointOffset
deriving DecidableEq

/-- `ContractClass` of src/deprecated_contract_class.rs (lines 13-20); the
ABI is kept as the raw optional JSON value it was parsed from. -/
structure DeprecatedContractClass where
  abi : Option Json
  program : Program
  entry_points_by_type : IndexMap EntryPointType (List DeprecatedEntryPoint)

/-- `StateDiff` (src/state.rs lines 38-45). -/
structure StateDiff where
  deployed_contracts : IndexMap ContractAddress ClassHash
  storage_diffs : IndexMap ContractAddress (IndexMap StorageKey StarkFelt)
  declared_classes : IndexMap ClassHash (CompiledClassHash × ContractClass)
  deprecated_declared_classes : IndexMap ClassHash DeprecatedContractClass
  nonces : IndexMap ContractAddress Nonce
  replaced_classes : IndexMap ContractAddress ClassHash

/-- `ThinStateDiff` (src/state.rs lines 118-125). -/
structure ThinStateDiff where
  deployed_contracts : IndexMap ContractAddress ClassHash
  storage_diffs : IndexMap ContractAddress (IndexMap StorageKey StarkFelt)
  declared_classes : IndexMap ClassHash CompiledClassHash
  deprecated_declared_classes : List ClassHash
  nonces : IndexMap ContractAddress Nonce
  replaced_classes : IndexMap ContractAddress ClassHash
deriving DecidableEq

/-- `DeclaredClasses` (src/state.rs line 15). -/
abbrev DeclaredClasses := IndexMap ClassHash ContractClass

/-- `DeprecatedDeclaredClasses` (src/state.rs line 16). -/
abbrev DeprecatedDeclaredClasses := IndexMap ClassHash DeprecatedContractClass

/-- `ThinStateDiff::from_state_diff` (src/state.rs lines 170-197): projects a
`StateDiff` to a `ThinStateDiff` plus the two class-body side tables. Each
`.collect()` into an `IndexMap` is `IndexMap.ofPairs`; the
`deprecated_declared_classes` hashes are collected into a `Vec`, i.e. the
plain key list. -/
def ThinStateDiff.from_state_diff (diff : StateDiff) :
    ThinStateDiff × DeclaredClasses × DeprecatedDeclaredClasses :=
  (⟨diff.deployed_contracts,
    diff.storage_diffs,
    IndexMap.ofPairs (diff.declared_classes.entries.map
      (fun p => (p.1, p.2.1))),
    diff.deprecated_declared_classes.keys,
    diff.nonces,
    diff.replaced_classes⟩,
   IndexMap.ofPairs (diff.declared_classes.entries.map
     (fun p => (p.1, p.2.2))),
   diff.deprecated_declared_classes)

/-! ## Sample values used by the witnesses -/

/-- A small concrete legacy program body. -/
def sampleProgram : Program :=
  ⟨.null, .arrVal [.strVal "pedersen"], .null, .arrVal [.numVal 1],
   .null, .objVal [], .objVal [], .strVal "main", .strVal "PRIME", .objVal []⟩

/-- A small concrete deprecated class body. -/
def sampleDeprecatedClass : DeprecatedContractClass :=
  ⟨none, sampleProgram, ⟨[(.external, [⟨⟨7⟩, ⟨2⟩⟩])]⟩⟩

/-- A small concrete sierra class body. -/
def sampleSierraClass : ContractClass :=
  ⟨[1, 2, 3], ⟨[(.external, [⟨⟨0⟩, ⟨9⟩⟩])]⟩, "[]"⟩

/-- A second sierra class body, for a two-entry declared-class map. -/
def sampleSierraClass2 : ContractClass :=
  ⟨[4, 5], ⟨[]⟩, ""⟩

/-- A concrete `StateDiff` with two declared classes and one deprecated
declaration, disjoint key sets. -/
def sampleStateDiff : StateDiff where
  deployed_contracts := ⟨[(⟨1⟩, ⟨20⟩), (⟨3⟩, ⟨21⟩)]⟩
  storage_diffs := ⟨[(⟨1⟩, ⟨[(⟨9⟩, 5)]⟩)]⟩
  declared_classes := ⟨[(⟨10⟩, (⟨100⟩, sampleSierraClass)),
                        (⟨11⟩, (⟨101⟩, sampleSierraClass2))]⟩
  deprecated_declared_classes := ⟨[(⟨12⟩, sampleDeprecatedClass)]⟩
  nonces := ⟨[(⟨1⟩, ⟨2⟩)]⟩
  replaced_classes := ⟨[(⟨3⟩, ⟨22⟩)]⟩

/-! ## Claims C1, C2: block-signature verification -/

/-- C1: `verify_block_signature` hashes the pair (block hash first, state
commitment second) with the external two-input field hash and delegates
verification of (public key, message, r, s) to the external curve check,
translating a reported error into `BlockSignatureVerificationFailed`; the
hash arguments are never swapped. -/
theorem verify_block_signature_hash_order
    (poseidon_hash_array : List StarkHash → StarkHash) (ecdsaVerify : EcdsaVerify)
    (pk : SequencerPublicKey) (sig : BlockSignature) (sc : GlobalRoot)
    (bh : BlockHash) :
    verify_block_signature poseidon_hash_array ecdsaVerify pk sig sc bh =
      match ecdsaVerify pk.pk.key (poseidon_hash_array [bh.hash, sc.root])
          sig.sig.r sig.sig.s with
      | .ok b => .ok b
      | .error e => .error (.blockSignatureVerificationFailed bh
          (match e with
            | .invalidPublicKey => .invalidPublicKey pk.pk
            | .invalidMessageHash =>
                .invalidMessageHash (poseidon_hash_array [bh.hash, sc.root])
            | .invalidR => .invalidR sig.sig.r
            | .invalidS => .invalidS sig.sig.s)) := by
  unfold verify_block_signature verify_message_hash_signature
  cases h : ecdsaVerify pk.pk.key (poseidon_hash_array [bh.hash, sc.root])
      sig.sig.r sig.sig.s with
  | ok b => simp [Except.mapError, h]
  | error e => cases e <;> simp [Except.mapError, h]

/-- C2: `verify_message_hash_signature` propagates the external check's
boolean result unchanged (a well-formed but non-matching signature is
`Ok false`, never an error), and errors exactly when the external check
reports a structurally invalid input, the variant carrying the offending
argument: the public key, the message hash, r, or s respectively. -/
theorem verify_message_hash_signature_error_contract
    (ecdsaVerify : EcdsaVerify) (message_hash : StarkFelt) (sig : Signature)
    (pk : PublicKey) :
    verify_message_hash_signature ecdsaVerify message_hash sig pk =
      match ecdsaVerify pk.key message_hash sig.r sig.s with
      | .ok b => .ok b
      | .error .invalidPublicKey => .error (.invalidPublicKey pk)
      | .error .invalidMessageHash => .error (.invalidMessageHash message_hash)
      | .error .invalidR => .error (.invalidR sig.r)
      | .error .invalidS => .error (.invalidS sig.s) := by
  unfold verify_message_hash_signature
  cases h : ecdsaVerify pk.key message_hash sig.r sig.s with
  | ok b => simp [Except.mapError, h]
  | error e => cases e <;> simp [Except.mapError, h]

/-! ## Claims C3, C4, C7: the state-diff reducer -/

theorem map_fst_of_fst_preserving {K A B : Type} (l : List (K × A))
    (f : K × A → B) :
    (l.map (fun p => (p.1, f p))).map Prod.fst = l.map Prod.fst := by
  simp [List.map_map, Function.comp_def]

/-- C3: `from_state_diff` sends each declared-class entry
`(hash, (compiled_hash, body))` to `(hash, compiled_hash)` in the thin diff
and to `(hash, body)` in the first side table, and each deprecated
declaration `(hash, body)` to the hash in the thin diff's plain ordered list
and to the pair in the second side table. -/
theorem from_state_diff_classes (diff : StateDiff)
    (h : diff.declared_classes.NodupKeys) :
    (ThinStateDiff.from_state_diff diff).1.declared_classes.entries =
        diff.declared_classes.entries.map (fun p => (p.1, p.2.1)) ∧
    (ThinStateDiff.from_state_diff diff).2.1.entries =
        diff.declared_classes.entries.map (fun p => (p.1, p.2.2)) ∧
    (ThinStateDiff.from_state_diff diff).1.deprecated_declared_classes =
        diff.deprecated_declared_classes.keys ∧
    (ThinStateDiff.from_state_diff diff).2.2 =
        diff.deprecated_declared_classes := by
  have hk1 : ((diff.declared_classes.entries.map
      (fun p => (p.1, p.2.1))).map Prod.fst).Nodup := by
    rw [map_fst_of_fst_preserving]
    exact h
  have hk2 : ((diff.declared_classes.entries.map
      (fun p => (p.1, p.2.2))).map Prod.fst).Nodup := by
    rw [map_fst_of_fst_preserving]
    exact h
  refine ⟨?_, ?_, rfl, rfl⟩
  · exact collectPairs_eq_self _ hk1
  · exact collectPairs_eq_self _ hk2

/-- Witness for C3: the sample diff's declared keys are distinct and the
theorem holds there. -/
theorem from_state_diff_classes_witness :
    sampleStateDiff.declared_classes.NodupKeys ∧
    ((ThinStateDiff.from_state_diff sampleStateDiff).1.declared_classes.entries =
        sampleStateDiff.declared_classes.entries.map (fun p => (p.1, p.2.1)) ∧
     (ThinStateDiff.from_state_diff sampleStateDiff).2.1.entries =
        sampleStateDiff.declared_classes.entries.map (fun p => (p.1, p.2.2)) ∧
     (ThinStateDiff.from_state_diff sampleStateDiff).1.deprecated_declared_classes =
        sampleStateDiff.deprecated_declared_classes.keys ∧
     (ThinStateDiff.from_state_diff sampleStateDiff).2.2 =
        sampleStateDiff.deprecated_declared_classes) :=
  ⟨by decide, from_state_diff_classes sampleStateDiff (by decide)⟩

/-- C4: on a `StateDiff` whose declared and deprecated class-hash key sets
are disjoint (and whose declared keys satisfy the `IndexMap` invariant),
`from_state_diff` preserves the declared-class key sequence exactly, keeps
the output's declared hashes disjoint from its deprecated hash list, and
preserves the iteration order of every output map: the four moved maps are
unchanged and the deprecated list is the input's key sequence. -/
theorem from_state_diff_order_disjoint (diff : StateDiff)
    (hnd : diff.declared_classes.NodupKeys)
    (hdisj : ∀ k, k ∈ diff.declared_classes.keys →
      k ∉ diff.deprecated_declared_classes.keys) :
    (ThinStateDiff.from_state_diff diff).1.declared_classes.keys =
        diff.declared_classes.keys ∧
    (∀ k, k ∈ (ThinStateDiff.from_state_diff diff).1.declared_classes.keys →
      k ∉ (ThinStateDiff.from_state_diff diff).1.deprecated_declared_classes) ∧
    (ThinStateDiff.from_state_diff diff).1.deployed_contracts =
        diff.deployed_contracts ∧
    (ThinStateDiff.from_state_diff diff).1.storage_diffs = diff.storage_diffs ∧
    (ThinStateDiff.from_state_diff diff).1.deprecated_declared_classes =
        diff.deprecated_declared_classes.keys ∧
    (ThinStateDiff.from_state_diff diff).1.nonces = diff.nonces ∧
    (ThinStateDiff.from_state_diff diff).1.replaced_classes =
        diff.replaced_classes := by
  have hk1 : ((diff.declared_classes.entries.map
      (fun p => (p.1, p.2.1))).map Prod.fst).Nodup := by
    rw [map_fst_of_fst_preserving]
    exact hnd
  have hkeys : (ThinStateDiff.from_state_diff diff).1.declared_classes.keys =
      diff.declared_classes.keys := by
    show (IndexMap.ofPairs (diff.declared_classes.entries.map
      (fun p => (p.1, p.2.1)))).keys = diff.declared_classes.keys
    unfold IndexMap.ofPairs IndexMap.keys
    rw [collectPairs_eq_self _ hk1]
    exact map_fst_of_fst_preserving _ _
  refine ⟨hkeys, ?_, rfl, rfl, rfl, rfl, rfl⟩
  intro k hk
  rw [hkeys] at hk
  exact hdisj k hk

/-- Witness for C4: the sample diff's declared and deprecated key sets are
disjoint and the theorem holds there. -/
theorem from_state_diff_order_disjoint_witness :
    (sampleStateDiff.declared_classes.NodupKeys ∧
     ∀ k, k ∈ sampleStateDiff.declared_classes.keys →
       k ∉ sampleStateDiff.deprecated_declared_classes.keys) ∧
    ((ThinStateDiff.from_state_diff sampleStateDiff).1.declared_classes.keys =
        sampleStateDiff.declared_classes.keys ∧
     (∀ k, k ∈ (ThinStateDiff.from_state_diff
          sampleStateDiff).1.declared_classes.keys →
       k ∉ (ThinStateDiff.from_state_diff
          sampleStateDiff).1.deprecated_declared_classes) ∧
     (ThinStateDiff.from_state_diff sampleStateDiff).1.deployed_contracts =
        sampleStateDiff.deployed_contracts ∧
     (ThinStateDiff.from_state_diff sampleStateDiff).1.storage_diffs =
        sampleStateDiff.storage_diffs ∧
     (ThinStateDiff.from_state_diff sampleStateDiff).1.deprecated_declared_classes =
        sampleStateDiff.deprecated_declared_classes.keys ∧
     (ThinStateDiff.from_state_diff sampleStateDiff).1.nonces =
        sampleStateDiff.nonces ∧
     (ThinStateDiff.from_state_diff sampleStateDiff).1.replaced_classes =
        sampleStateDiff.replaced_classes) :=
  ⟨⟨by decide, by decide⟩,
   from_state_diff_order_disjoint sampleStateDiff (by decide) (by decide)⟩

/-- C7: `from_state_diff` moves `deployed_contracts`, `storage_diffs`,
`nonces` and `replaced_classes` into the thin diff unchanged: entry for
entry, value for value, in the same order. -/
theorem from_state_diff_moves_other_fields (diff : StateDiff) :
    (ThinStateDiff.from_state_diff diff).1.deployed_contracts =
        diff.deployed_contracts ∧
    (ThinStateDiff.from_state_diff diff).1.storage_diffs = diff.storage_diffs ∧
    (ThinStateDiff.from_state_diff diff).1.nonces = diff.nonces ∧
    (ThinStateDiff.from_state_diff diff).1.replaced_classes =
        diff.replaced_classes :=
  ⟨rfl, rfl, rfl, rfl⟩

/-! ## The compact integer codec

Modelled from the spec: §4.1's four-width compact unsigned-integer encoding
(the `parity_scale_codec::Compact` wire form the source's `encode_to` and
`decode` delegate to; the crate itself is outside the repository). Bytes are
naturals below 256; mode is the two low bits of the first byte: 0 = 6-bit
value inline, 1 = 14-bit over two little-endian bytes, 2 = 30-bit over four
bytes, 3 = a header byte carrying (byte-count − 4) followed by that many
little-endian bytes, with an 8-byte ceiling for 64-bit values. -/

/-- The `w` little-endian base-256 digits of `n`. -/
def toLEBytes : Nat → Nat → List Nat
  | 0, _ => []
  | w + 1, n => n % 256 :: toLEBytes w (n / 256)

/-- The value of a little-endian byte list. -/
def fromLEBytes : List Nat → Nat
  | [] => 0
  | b :: bs => b + 256 * fromLEBytes bs

theorem toLEBytes_length (w n : Nat) : (toLEBytes w n).length = w := by
  induction w generalizing n with
  | zero => rfl
  | succ v ih => simp [toLEBytes, ih]

theorem toLEBytes_lt (w n : Nat) : ∀ b ∈ toLEBytes w n, b < 256 := by
  induction w generalizing n with
  | zero => intro b hb; simp [toLEBytes] at hb
  | succ v ih =>
    intro b hb
    simp only [toLEBytes, List.mem_cons] at hb
    rcases hb with hb | hb
    · omega
    · exact ih (n / 256) b hb

theorem fromLEBytes_toLEBytes (w : Nat) :
    ∀ n : Nat, n < 256 ^ w → fromLEBytes (toLEBytes w n) = n := by
  induction w with
  | zero =>
    intro n hn
    interval_cases n
    rfl
  | succ v ih =>
    intro n hn
    have hdiv : n / 256 < 256 ^ v := by
      rw [Nat.div_lt_iff_lt_mul (by omega)]
      calc n < 256 ^ (v + 1) := hn
        _ = 256 ^ v * 256 := by ring
    simp only [toLEBytes, fromLEBytes, ih (n / 256) hdiv]
    omega

theorem toLEBytes_fromLEBytes (l : List Nat) (h : ∀ b ∈ l, b < 256) :
    toLEBytes l.length (fromLEBytes l) = l := by
  induction l with
  | nil => rfl
  | cons b bs ih =>
    have hb : b < 256 := h b (by simp)
    have hmod : (b + 256 * fromLEBytes bs) % 256 = b := by omega
    have hdiv : (b + 256 * fromLEBytes bs) / 256 = fromLEBytes bs := by omega
    simp only [List.length_cons, toLEBytes, fromLEBytes, hmod, hdiv]
    rw [ih (fun x hx => h x (by simp [hx]))]

/-- The minimal byte count, at least four, of a mode-3 payload. -/
def bytesNeeded (n : Nat) : Nat :=
  if n < 2 ^ 32 then 4
  else if n < 2 ^ 40 then 5
  else if n < 2 ^ 48 then 6
  else if n < 2 ^ 56 then 7
  else 8

theorem bytesNeeded_spec (n : Nat) (h : n < 2 ^ 64) :
    4 ≤ bytesNeeded n ∧ bytesNeeded n ≤ 8 ∧ n < 256 ^ bytesNeeded n := by
  unfold bytesNeeded
  split
  · refine ⟨by norm_num, by norm_num, ?_⟩
    calc n < 2 ^ 32 := by assumption
      _ = 256 ^ 4 := by norm_num
  split
  · refine ⟨by norm_num, by norm_num, ?_⟩
    calc n < 2 ^ 40 := by assumption
      _ = 256 ^ 5 := by norm_num
  split
  · refine ⟨by norm_num, by norm_num, ?_⟩
    calc n < 2 ^ 48 := by assumption
      _ = 256 ^ 6 := by norm_num
  split
  · refine ⟨by norm_num, by norm_num, ?_⟩
    calc n < 2 ^ 56 := by assumption
      _ = 256 ^ 7 := by norm_num
  · refine ⟨by norm_num, by norm_num, ?_⟩
    calc n < 2 ^ 64 := h
      _ = 256 ^ 8 := by norm_num

/-- Compact encoding of an unsigned integer: the minimal of the four width
classes, tagged in the two low bits of the first byte. -/
def compactEncode (n : Nat) : List Nat :=
  if n < 2 ^ 6 then [n * 4]
  else if n < 2 ^ 14 then toLEBytes 2 (n * 4 + 1)
  else if n < 2 ^ 30 then toLEBytes 4 (n * 4 + 2)
  else ((bytesNeeded n - 4) * 4 + 3) :: toLEBytes (bytesNeeded n) n

/-- Compact decoding: reads the mode from the two low bits; fails on
truncated input or on a mode-3 byte count above the 8-byte ceiling. -/
def compactDecode : List Nat → Option (Nat × List Nat)
  | [] => none
  | b :: rest =>
    if b % 4 = 0 then some (b / 4, rest)
    else if b % 4 = 1 then
      match rest with
      | b2 :: rest2 => some ((b + 256 * b2) / 4, rest2)
      | [] => none
    else if b % 4 = 2 then
      match rest with
      | b2 :: b3 :: b4 :: rest4 =>
          some ((b + 256 * (b2 + 256 * (b3 + 256 * b4))) / 4, rest4)
      | _ => none
    else
      if 8 < b / 4 + 4 then none
      else if rest.length < b / 4 + 4 then none
      else some (fromLEBytes (rest.take (b / 4 + 4)), rest.drop (b / 4 + 4))

theorem compactDecode_compactEncode (n : Nat) (h : n < 2 ^ 64)
    (rest : List Nat) : compactDecode (compactEncode n ++ rest) = some (n, rest) := by
  unfold compactEncode
  split
  · rename_i h0
    have hb0 : n * 4 % 4 = 0 := by omega
    have hv0 : n * 4 / 4 = n := by omega
    simp [compactDecode, hb0, hv0]
  split
  · rename_i h0 h1
    simp only [toLEBytes, List.cons_append, List.nil_append]
    have hb : (n * 4 + 1) % 256 % 4 = 1 := by omega
    have hm : ¬((n * 4 + 1) % 256 % 4 = 0) := by omega
    have hv : ((n * 4 + 1) % 256 + 256 * ((n * 4 + 1) / 256 % 256)) / 4 = n := by
      have h2 : (n * 4 + 1) / 256 % 256 = (n * 4 + 1) / 256 := by omega
      rw [h2]
      omega
    simp [compactDecode, hm, hb, hv]
  split
  · rename_i h0 h1 h2
    simp only [toLEBytes, List.cons_append, List.nil_append]
    set m := n * 4 + 2 with hm_def
    have hb : m % 256 % 4 = 2 := by omega
    have hne0 : ¬(m % 256 % 4 = 0) := by omega
    have hne1 : ¬(m % 256 % 4 = 1) := by omega
    have hv : (m % 256 + 256 * (m / 256 % 256 + 256 * (m / 256 / 256 % 256 +
        256 * (m / 256 / 256 / 256 % 256)))) / 4 = n := by omega
    simp [compactDecode, hne0, hne1, hb, hv]
  · rename_i h0 h1 h2
    obtain ⟨hge4, hle8, hlt⟩ := bytesNeeded_spec n h
    set w := bytesNeeded n with hw_def
    have hb3 : ((w - 4) * 4 + 3) % 4 = 3 := by omega
    have hne0 : ¬(((w - 4) * 4 + 3) % 4 = 0) := by omega
    have hne1 : ¬(((w - 4) * 4 + 3) % 4 = 1) := by omega
    have hne2 : ¬(((w - 4) * 4 + 3) % 4 = 2) := by omega
    have hwv : ((w - 4) * 4 + 3) / 4 + 4 = w := by omega
    have hlen : (toLEBytes w n ++ rest).length = w + rest.length := by
      simp [toLEBytes_length]
    have htake : (toLEBytes w n ++ rest).take w = toLEBytes w n :=
      List.take_left' (toLEBytes_length w n)
    have hdrop : (toLEBytes w n ++ rest).drop w = rest :=
      List.drop_left' (toLEBytes_length w n)
    simp only [List.cons_append, compactDecode, hwv, hlen]
    rw [if_neg hne0, if_neg hne1, if_neg hne2,
      if_neg (by omega : ¬(8 < w)), if_neg (by omega : ¬(w + rest.length < w)),
      htake, hdrop, fromLEBytes_toLEBytes w n hlt]

/-! ## Sequences over the compact codec -/

/-- An ordered sequence on the wire: the compact-encoded length followed by
the elements' encodings in source iteration order. -/
def encodeSeq {α : Type} (enc : α → List Nat) (l : List α) : List Nat :=
  compactEncode l.length ++ (l.map enc).flatten

/-- Decode `n` consecutive elements, returning them with the unconsumed tail. -/
def decodeElems {α : Type} (dec : List Nat → Option (α × List Nat)) :
    Nat → List Nat → Option (List α × List Nat)
  | 0, input => some ([], input)
  | n + 1, input =>
    match dec input with
    | none => none
    | some (a, r) =>
      match decodeElems dec n r with
      | none => none
      | some (l, r2) => some (a :: l, r2)

/-- Decode a length-prefixed sequence. -/
def decodeSeq {α : Type} (dec : List Nat → Option (α × List Nat))
    (input : List Nat) : Option (List α × List Nat) :=
  match compactDecode input with
  | none => none
  | some (n, r) => decodeElems dec n r

theorem decodeElems_append {α : Type} (dec : List Nat → Option (α × List Nat))
    (enc : α → List Nat) (l : List α) (rest : List Nat)
    (h : ∀ a ∈ l, ∀ r, dec (enc a ++ r) = some (a, r)) :
    decodeElems dec l.length ((l.map enc).flatten ++ rest) = some (l, rest) := by
  induction l with
  | nil => simp [decodeElems]
  | cons a t ih =>
    have ha := h a (by simp) ((t.map enc).flatten ++ rest)
    have ht := ih (fun x hx r => h x (by simp [hx]) r)
    simp only [List.length_cons, List.map_cons, List.flatten_cons, List.append_assoc,
      decodeElems, ha, ht]

theorem decodeSeq_encodeSeq {α : Type} (dec : List Nat → Option (α × List Nat))
    (enc : α → List Nat) (l : List α) (rest : List Nat)
    (hlen : l.length < 2 ^ 64)
    (h : ∀ a ∈ l, ∀ r, dec (enc a ++ r) = some (a, r)) :
    decodeSeq dec (encodeSeq enc l ++ rest) = some (l, rest) := by
  unfold decodeSeq encodeSeq
  rw [List.append_assoc, compactDecode_compactEncode l.length hlen]
  exact decodeElems_append dec enc l rest h

/-- Decoding a pair: first component, then second (the SCALE tuple layout). -/
def pairDec {α β : Type} (dA : List Nat → Option (α × List Nat))
    (dB : List Nat → Option (β × List Nat)) (input : List Nat) :
    Option ((α × β) × List Nat) :=
  match dA input with
  | none => none
  | some (a, r) =>
    match dB r with
    | none => none
    | some (b, r2) => some ((a, b), r2)

theorem pairDec_append {α β : Type} (dA : List Nat → Option (α × List Nat))
    (dB : List Nat → Option (β × List Nat)) (encA : α → List Nat)
    (encB : β → List Nat) (a : α) (b : β) (r : List Nat)
    (hA : ∀ r2, dA (encA a ++ r2) = some (a, r2))
    (hB : ∀ r2, dB (encB b ++ r2) = some (b, r2)) :
    pairDec dA dB ((encA a ++ encB b) ++ r) = some ((a, b), r) := by
  rw [List.append_assoc]
  simp only [pairDec, hA (encB b ++ r), hB r]

/-- An encoder-decoder pair for one leaf type (the SCALE `Encode`/`Decode`
implementations of the core types, defined outside the embedded files). -/
structure Codec (α : Type) where
  enc : α → List Nat
  dec : List Nat → Option (α × List Nat)

/-- The codec contract: the decoder inverts the encoder on every value,
preserving the unconsumed tail. -/
def Codec.RoundTrips {α : Type} (c : Codec α) : Prop :=
  ∀ a r, c.dec (c.enc a ++ r) = some (a, r)

/-! ## The `ThinStateDiff` codec (src/state.rs lines 206-268) -/

/-- `<ThinStateDiff as Encode>::encode_to` (src/state.rs lines 221-238): for
each of the six fields in declaration order, pushes the compact-encoded
length then each entry's encoding in iteration order onto `dest`; a storage
entry pushes the address, then the inner map's compact-encoded length, then
its (key, value) pairs. -/
def ThinStateDiff.encode_to (cA : Codec ContractAddress) (cH : Codec ClassHash)
    (cC : Codec CompiledClassHash) (cK : Codec StorageKey) (cF : Codec StarkFelt)
    (cN : Codec Nonce) (d : ThinStateDiff) (dest : List Nat) : List Nat :=
  let d1 := dest ++ compactEncode d.deployed_contracts.entries.length
  let d2 := d.deployed_contracts.entries.foldl
    (fun acc v => acc ++ (cA.enc v.1 ++ cH.enc v.2)) d1
  let d3 := d2 ++ compactEncode d.storage_diffs.entries.length
  let d4 := d.storage_diffs.entries.foldl
    (fun acc p =>
      p.2.entries.foldl (fun a2 kv => a2 ++ (cK.enc kv.1 ++ cF.enc kv.2))
        (acc ++ cA.enc p.1 ++ compactEncode p.2.entries.length)) d3
  let d5 := d4 ++ compactEncode d.declared_classes.entries.length
  let d6 := d.declared_classes.entries.foldl
    (fun acc v => acc ++ (cH.enc v.1 ++ cC.enc v.2)) d5
  let d7 := d6 ++ compactEncode d.deprecated_declared_classes.length
  let d8 := d.deprecated_declared_classes.foldl (fun acc v => acc ++ cH.enc v) d7
  let d9 := d8 ++ compactEncode d.nonces.entries.length
  let d10 := d.nonces.entries.foldl
    (fun acc v => acc ++ (cA.enc v.1 ++ cN.enc v.2)) d9
  let d11 := d10 ++ compactEncode d.replaced_classes.entries.length
  d.replaced_classes.entries.foldl
    (fun acc v => acc ++ (cA.enc v.1 ++ cH.enc v.2)) d11

/-- `Encode::encode`: run `encode_to` on an empty output buffer. -/
def ThinStateDiff.encode (cA : Codec ContractAddress) (cH : Codec ClassHash)
    (cC : Codec CompiledClassHash) (cK : Codec StorageKey) (cF : Codec StarkFelt)
    (cN : Codec Nonce) (d : ThinStateDiff) : List Nat :=
  ThinStateDiff.encode_to cA cH cC cK cF cN d []

/-- The wire layout the spec describes for `ThinStateDiff`: six
length-prefixed sequences concatenated in fixed field order, a storage entry
being the address followed by the length-prefixed inner sequence of
(key, value) pairs. -/
def thinStateDiffWireLayout (cA : Codec ContractAddress) (cH : Codec ClassHash)
    (cC : Codec CompiledClassHash) (cK : Codec StorageKey) (cF : Codec StarkFelt)
    (cN : Codec Nonce) (d : ThinStateDiff) : List Nat :=
  encodeSeq (fun v => cA.enc v.1 ++ cH.enc v.2) d.deployed_contracts.entries ++
  encodeSeq (fun p => cA.enc p.1 ++
      encodeSeq (fun kv => cK.enc kv.1 ++ cF.enc kv.2) p.2.entries)
    d.storage_diffs.entries ++
  encodeSeq (fun v => cH.enc v.1 ++ cC.enc v.2) d.declared_classes.entries ++
  encodeSeq cH.enc d.deprecated_declared_classes ++
  encodeSeq (fun v => cA.enc v.1 ++ cN.enc v.2) d.nonces.entries ++
  encodeSeq (fun v => cA.enc v.1 ++ cH.enc v.2) d.replaced_classes.entries

theorem foldl_append_flatten {α : Type} (f : α → List Nat) (l : List α) :
    ∀ init : List Nat,
      l.foldl (fun acc x => acc ++ f x) init = init ++ (l.map f).flatten := by
  induction l with
  | nil => intro init; simp
  | cons x t ih => intro init; simp [ih, List.append_assoc]

theorem storage_fold_step (cA : Codec ContractAddress) (cK : Codec StorageKey)
    (cF : Codec StarkFelt) (acc : List Nat)
    (p : ContractAddress × IndexMap StorageKey StarkFelt) :
    p.2.entries.foldl (fun a2 kv => a2 ++ (cK.enc kv.1 ++ cF.enc kv.2))
        (acc ++ cA.enc p.1 ++ compactEncode p.2.entries.length) =
      acc ++ (cA.enc p.1 ++
        encodeSeq (fun kv => cK.enc kv.1 ++ cF.enc kv.2) p.2.entries) := by
  rw [foldl_append_flatten]
  simp [encodeSeq, List.append_assoc]

/-- C6 (helper form): the encoder emits exactly the six length-prefixed
sequences of the wire layout. -/
theorem encode_eq_wireLayout (cA : Codec ContractAddress) (cH : Codec ClassHash)
    (cC : Codec CompiledClassHash) (cK : Codec StorageKey) (cF : Codec StarkFelt)
    (cN : Codec Nonce) (d : ThinStateDiff) :
    ThinStateDiff.encode cA cH cC cK cF cN d =
      thinStateDiffWireLayout cA cH cC cK cF cN d := by
  unfold ThinStateDiff.encode ThinStateDiff.encode_to thinStateDiffWireLayout
  have hstep : (fun (acc : List Nat)
      (p : ContractAddress × IndexMap StorageKey StarkFelt) =>
        p.2.entries.foldl (fun a2 kv => a2 ++ (cK.enc kv.1 ++ cF.enc kv.2))
          (acc ++ cA.enc p.1 ++ compactEncode p.2.entries.length)) =
      (fun acc p => acc ++ (cA.enc p.1 ++
        encodeSeq (fun kv => cK.enc kv.1 ++ cF.enc kv.2) p.2.entries)) := by
    funext acc p
    exact storage_fold_step cA cK cF acc p
  rw [hstep]
  rw [foldl_append_flatten, foldl_append_flatten, foldl_append_flatten,
    foldl_append_flatten, foldl_append_flatten, foldl_append_flatten]
  simp [encodeSeq, List.append_assoc]

/-- `<ThinStateDiff as Decode>::decode` (src/state.rs lines 242-268): decodes
the six vectors in field order (the SCALE tuple layout), then collects each
into its container — pair vectors into `IndexMap`s (outer and inner storage
maps included), the deprecated hashes staying a plain list. The unconsumed
input is returned alongside, modelling the stateful `Input`. -/
def ThinStateDiff.decode (cA : Codec ContractAddress) (cH : Codec ClassHash)
    (cC : Codec CompiledClassHash) (cK : Codec StorageKey) (cF : Codec StarkFelt)
    (cN : Codec Nonce) (input : List Nat) : Option (ThinStateDiff × List Nat) :=
  Option.bind (decodeSeq (pairDec cA.dec cH.dec) input) fun s0 =>
  Option.bind (decodeSeq (pairDec cA.dec (decodeSeq (pairDec cK.dec cF.dec))) s0.2)
    fun s1 =>
  Option.bind (decodeSeq (pairDec cH.dec cC.dec) s1.2) fun s2 =>
  Option.bind (decodeSeq cH.dec s2.2) fun s3 =>
  Option.bind (decodeSeq (pairDec cA.dec cN.dec) s3.2) fun s4 =>
  Option.bind (decodeSeq (pairDec cA.dec cH.dec) s4.2) fun s5 =>
  some (⟨IndexMap.ofPairs s0.1,
         IndexMap.ofPairs (s1.1.map (fun p => (p.1, IndexMap.ofPairs p.2))),
         IndexMap.ofPairs s2.1,
         s3.1,
         IndexMap.ofPairs s4.1,
         IndexMap.ofPairs s5.1⟩, s5.2)

/-- All sequence lengths of the diff fit in a `u64`, as every Rust container
length does. -/
def ThinStateDiff.SizesFit (d : ThinStateDiff) : Prop :=
  d.deployed_contracts.entries.length < 2 ^ 64 ∧
  d.storage_diffs.entries.length < 2 ^ 64 ∧
  (∀ p ∈ d.storage_diffs.entries, p.2.entries.length < 2 ^ 64) ∧
  d.declared_classes.entries.length < 2 ^ 64 ∧
  d.deprecated_declared_classes.length < 2 ^ 64 ∧
  d.nonces.entries.length < 2 ^ 64 ∧
  d.replaced_classes.entries.length < 2 ^ 64

instance (d : ThinStateDiff) : Decidable d.SizesFit := by
  unfold ThinStateDiff.SizesFit
  infer_instance

/-- All maps of the diff satisfy the `IndexMap` invariant of pairwise
distinct keys, inner storage maps included. -/
def ThinStateDiff.MapsNodup (d : ThinStateDiff) : Prop :=
  d.deployed_contracts.NodupKeys ∧
  d.storage_diffs.NodupKeys ∧
  (∀ p ∈ d.storage_diffs.entries, p.2.NodupKeys) ∧
  d.declared_classes.NodupKeys ∧
  d.nonces.NodupKeys ∧
  d.replaced_classes.NodupKeys

instance (d : ThinStateDiff) : Decidable d.MapsNodup := by
  unfold ThinStateDiff.MapsNodup
  infer_instance

theorem IndexMap.ofPairs_entries {K V : Type} [DecidableEq K]
    (m : IndexMap K V) (h : m.NodupKeys) : IndexMap.ofPairs m.entries = m := by
  obtain ⟨l⟩ := m
  unfold IndexMap.ofPairs
  rw [collectPairs_eq_self l (by simpa [IndexMap.NodupKeys, IndexMap.keys] using h)]

theorem map_self_of_eq {α : Type} {l : List α} {f : α → α}
    (h : ∀ a ∈ l, f a = a) : l.map f = l := by
  induction l with
  | nil => rfl
  | cons a t ih =>
    simp only [List.map_cons, h a (by simp), ih (fun x hx => h x (by simp [hx]))]

theorem encodeSeq_map {α β : Type} (enc : β → List Nat) (g : α → β)
    (l : List α) : encodeSeq enc (l.map g) = encodeSeq (fun x => enc (g x)) l := by
  simp [encodeSeq, List.map_map, Function.comp_def]

/-- C5: decoding the encoding of a `ThinStateDiff` succeeds and returns a
value structurally equal to the original — every ordered map (outer and
inner) and the deprecated list in their exact original iteration order —
with the trailing input untouched; assuming the leaf codecs round-trip, the
sequence lengths fit `u64`, and the maps carry the `IndexMap` invariant. -/
theorem thin_state_diff_roundtrip (cA : Codec ContractAddress)
    (cH : Codec ClassHash) (cC : Codec CompiledClassHash) (cK : Codec StorageKey)
    (cF : Codec StarkFelt) (cN : Codec Nonce) (d : ThinStateDiff)
    (rest : List Nat) (hA : cA.RoundTrips) (hH : cH.RoundTrips)
    (hC : cC.RoundTrips) (hK : cK.RoundTrips) (hF : cF.RoundTrips)
    (hN : cN.RoundTrips) (hsz : d.SizesFit) (hnd : d.MapsNodup) :
    ThinStateDiff.decode cA cH cC cK cF cN
        (ThinStateDiff.encode cA cH cC cK cF cN d ++ rest) = some (d, rest) := by
  obtain ⟨hs1, hs2, hs2i, hs3, hs4, hs5, hs6⟩ := hsz
  obtain ⟨hn1, hn2, hn2i, hn3, hn5, hn6⟩ := hnd
  have h1 : ∀ R, decodeSeq (pairDec cA.dec cH.dec)
      (encodeSeq (fun v => cA.enc v.1 ++ cH.enc v.2)
        d.deployed_contracts.entries ++ R) =
      some (d.deployed_contracts.entries, R) := by
    intro R
    refine decodeSeq_encodeSeq _ _ _ R hs1 ?_
    intro v _ r
    exact pairDec_append cA.dec cH.dec cA.enc cH.enc v.1 v.2 r (hA v.1) (hH v.2)
  have h2 : ∀ R, decodeSeq (pairDec cA.dec (decodeSeq (pairDec cK.dec cF.dec)))
      (encodeSeq (fun p => cA.enc p.1 ++
          encodeSeq (fun kv => cK.enc kv.1 ++ cF.enc kv.2) p.2.entries)
        d.storage_diffs.entries ++ R) =
      some (d.storage_diffs.entries.map (fun p => (p.1, p.2.entries)), R) := by
    intro R
    have e2 : ∀ q ∈ d.storage_diffs.entries.map (fun p => (p.1, p.2.entries)),
        ∀ r, pairDec cA.dec (decodeSeq (pairDec cK.dec cF.dec))
          ((fun q => cA.enc q.1 ++
            encodeSeq (fun kv => cK.enc kv.1 ++ cF.enc kv.2) q.2) q ++ r) =
          some (q, r) := by
      intro q hq r
      obtain ⟨p, hp, rfl⟩ := List.mem_map.mp hq
      refine pairDec_append cA.dec (decodeSeq (pairDec cK.dec cF.dec)) cA.enc
        (fun l2 => encodeSeq (fun kv => cK.enc kv.1 ++ cF.enc kv.2) l2)
        p.1 p.2.entries r (hA p.1) ?_
      intro r2
      refine decodeSeq_encodeSeq _ _ _ r2 (hs2i p hp) ?_
      intro kv _ r3
      exact pairDec_append cK.dec cF.dec cK.enc cF.enc kv.1 kv.2 r3
        (hK kv.1) (hF kv.2)
    have := decodeSeq_encodeSeq
      (pairDec cA.dec (decodeSeq (pairDec cK.dec cF.dec)))
      (fun q => cA.enc q.1 ++
        encodeSeq (fun kv => cK.enc kv.1 ++ cF.enc kv.2) q.2)
      (d.storage_diffs.entries.map (fun p => (p.1, p.2.entries))) R
      (by simpa using hs2) e2
    rw [encodeSeq_map] at this
    exact this
  have h3 : ∀ R, decodeSeq (pairDec cH.dec cC.dec)
      (encodeSeq (fun v => cH.enc v.1 ++ cC.enc v.2)
        d.declared_classes.entries ++ R) =
      some (d.declared_classes.entries, R) := by
    intro R
    refine decodeSeq_encodeSeq _ _ _ R hs3 ?_
    intro v _ r
    exact pairDec_append cH.dec cC.dec cH.enc cC.enc v.1 v.2 r (hH v.1) (hC v.2)
  have h4 : ∀ R, decodeSeq cH.dec
      (encodeSeq cH.enc d.deprecated_declared_classes ++ R) =
      some (d.deprecated_declared_classes, R) := by
    intro R
    exact decodeSeq_encodeSeq _ _ _ R hs4 (fun a _ r => hH a r)
  have h5 : ∀ R, decodeSeq (pairDec cA.dec cN.dec)
      (encodeSeq (fun v => cA.enc v.1 ++ cN.enc v.2) d.nonces.entries ++ R) =
      some (d.nonces.entries, R) := by
    intro R
    refine decodeSeq_encodeSeq _ _ _ R hs5 ?_
    intro v _ r
    exact pairDec_append cA.dec cN.dec cA.enc cN.enc v.1 v.2 r (hA v.1) (hN v.2)
  have h6 : ∀ R, decodeSeq (pairDec cA.dec cH.dec)
      (encodeSeq (fun v => cA.enc v.1 ++ cH.enc v.2)
        d.replaced_classes.entries ++ R) =
      some (d.replaced_classes.entries, R) := by
    intro R
    refine decodeSeq_encodeSeq _ _ _ R hs6 ?_
    intro v _ r
    exact pairDec_append cA.dec cH.dec cA.enc cH.enc v.1 v.2 r (hA v.1) (hH v.2)
  rw [encode_eq_wireLayout]
  unfold thinStateDiffWireLayout ThinStateDiff.decode
  simp only [List.append_assoc]
  rw [h1]
  simp only [Option.some_bind]
  rw [h2]
  simp only [Option.some_bind]
  rw [h3]
  simp only [Option.some_bind]
  rw [h4]
  simp only [Option.some_bind]
  rw [h5]
  simp only [Option.some_bind]
  rw [h6]
  simp only [Option.some_bind]
  have hr0 : IndexMap.ofPairs d.deployed_contracts.entries =
      d.deployed_contracts := IndexMap.ofPairs_entries _ hn1
  have hrS : IndexMap.ofPairs
      ((d.storage_diffs.entries.map (fun p => (p.1, p.2.entries))).map
        (fun p => (p.1, IndexMap.ofPairs p.2))) = d.storage_diffs := by
    rw [List.map_map]
    have hid : d.storage_diffs.entries.map
        (fun p => (p.1, IndexMap.ofPairs p.2.entries)) =
        d.storage_diffs.entries := by
      apply map_self_of_eq
      intro p hp
      rw [IndexMap.ofPairs_entries p.2 (hn2i p hp)]
    have hcomp : ((fun (p : ContractAddress × List (StorageKey × StarkFelt)) =>
        (p.1, IndexMap.ofPairs p.2)) ∘
          (fun (p : ContractAddress × IndexMap StorageKey StarkFelt) =>
            (p.1, p.2.entries))) =
        (fun p => (p.1, IndexMap.ofPairs p.2.entries)) := rfl
    rw [hcomp, hid]
    exact IndexMap.ofPairs_entries _ hn2
  have hr2 : IndexMap.ofPairs d.declared_classes.entries = d.declared_classes :=
    IndexMap.ofPairs_entries _ hn3
  have hr4 : IndexMap.ofPairs d.nonces.entries = d.nonces :=
    IndexMap.ofPairs_entries _ hn5
  have hr5 : IndexMap.ofPairs d.replaced_classes.entries = d.replaced_classes :=
    IndexMap.ofPairs_entries _ hn6
  simp only [hr0, hrS, hr2, hr4, hr5]

/-- C6: the encoding of a `ThinStateDiff` is exactly the six length-prefixed
sequences concatenated in the fixed field order deployed_contracts,
storage_diffs (each entry an address followed by a length-prefixed inner
sequence of (key, value) pairs), declared_classes,
deprecated_declared_classes, nonces, replaced_classes — each sequence a
compact-encoded length followed by its elements in source iteration order. -/
theorem thin_state_diff_wire_format (cA : Codec ContractAddress)
    (cH : Codec ClassHash) (cC : Codec CompiledClassHash) (cK : Codec StorageKey)
    (cF : Codec StarkFelt) (cN : Codec Nonce) (d : ThinStateDiff) :
    ThinStateDiff.encode cA cH cC cK cF cN d =
      encodeSeq (fun v => cA.enc v.1 ++ cH.enc v.2)
          d.deployed_contracts.entries ++
      encodeSeq (fun p => cA.enc p.1 ++
          encodeSeq (fun kv => cK.enc kv.1 ++ cF.enc kv.2) p.2.entries)
        d.storage_diffs.entries ++
      encodeSeq (fun v => cH.enc v.1 ++ cC.enc v.2) d.declared_classes.entries ++
      encodeSeq cH.enc d.deprecated_declared_classes ++
      encodeSeq (fun v => cA.enc v.1 ++ cN.enc v.2) d.nonces.entries ++
      encodeSeq (fun v => cA.enc v.1 ++ cH.enc v.2) d.replaced_classes.entries :=
  encode_eq_wireLayout cA cH cC cK cF cN d

/-! ## Concrete leaf codecs for the codec witnesses -/

/-- A trivially invertible byte encoding of a natural: a run of ones closed
by a zero. -/
def unaryEnc (n : Nat) : List Nat := List.replicate n 1 ++ [0]

/-- The matching decoder: count nonzero bytes up to the first zero. -/
def unaryDec : List Nat → Option (Nat × List Nat)
  | [] => none
  | 0 :: r => some (0, r)
  | (_ + 1) :: r =>
    match unaryDec r with
    | none => none
    | some (n, r2) => some (n + 1, r2)

theorem unaryDec_unaryEnc (n : Nat) :
    ∀ r, unaryDec (unaryEnc n ++ r) = some (n, r) := by
  induction n with
  | zero => intro r; simp [unaryEnc, unaryDec]
  | succ m ih =>
    intro r
    have hm := ih r
    simp only [unaryEnc, List.append_assoc, List.singleton_append] at hm ⊢
    simp only [List.replicate_succ, List.cons_append]
    simp [unaryDec, hm]

/-- The unary codec on naturals. -/
def unaryCodec : Codec Nat := ⟨unaryEnc, unaryDec⟩

theorem unaryCodec_roundTrips : unaryCodec.RoundTrips :=
  fun a r => unaryDec_unaryEnc a r

/-- Transport a codec along an inverse pair of maps. -/
def mapCodec {α β : Type} (f : α → β) (g : β → α) (c : Codec α) : Codec β :=
  ⟨fun b => c.enc (g b), fun l => (c.dec l).map (fun p => (f p.1, p.2))⟩

theorem mapCodec_roundTrips {α β : Type} (f : α → β) (g : β → α) (c : Codec α)
    (hc : c.RoundTrips) (hfg : ∀ b, f (g b) = b) :
    (mapCodec f g c).RoundTrips := by
  intro b r
  show (c.dec (c.enc (g b) ++ r)).map (fun p => (f p.1, p.2)) = some (b, r)
  rw [hc (g b) r]
  simp [hfg b]

/-- Concrete address codec. -/
def addressCodec : Codec ContractAddress :=
  mapCodec (fun n => ⟨n⟩) (fun a => a.address) unaryCodec

theorem addressCodec_roundTrips : addressCodec.RoundTrips :=
  mapCodec_roundTrips _ _ _ unaryCodec_roundTrips (fun _ => rfl)

/-- Concrete class-hash codec. -/
def classHashCodec : Codec ClassHash :=
  mapCodec (fun n => ⟨n⟩) (fun a => a.hash) unaryCodec

theorem classHashCodec_roundTrips : classHashCodec.RoundTrips :=
  mapCodec_roundTrips _ _ _ unaryCodec_roundTrips (fun _ => rfl)

/-- Concrete compiled-class-hash codec. -/
def compiledClassHashCodec : Codec CompiledClassHash :=
  mapCodec (fun n => ⟨n⟩) (fun a => a.hash) unaryCodec

theorem compiledClassHashCodec_roundTrips : compiledClassHashCodec.RoundTrips :=
  mapCodec_roundTrips _ _ _ unaryCodec_roundTrips (fun _ => rfl)

/-- Concrete storage-key codec. -/
def storageKeyCodec : Codec StorageKey :=
  mapCodec (fun n => ⟨n⟩) (fun a => a.key) unaryCodec

theorem storageKeyCodec_roundTrips : storageKeyCodec.RoundTrips :=
  mapCodec_roundTrips _ _ _ unaryCodec_roundTrips (fun _ => rfl)

/-- Concrete field-element codec. -/
def feltCodec : Codec StarkFelt := unaryCodec

theorem feltCodec_roundTrips : feltCodec.RoundTrips := unaryCodec_roundTrips

/-- Concrete nonce codec. -/
def nonceCodec : Codec Nonce :=
  mapCodec (fun n => ⟨n⟩) (fun a => a.nonce) unaryCodec

theorem nonceCodec_roundTrips : nonceCodec.RoundTrips :=
  mapCodec_roundTrips _ _ _ unaryCodec_roundTrips (fun _ => rfl)

/-- The §8 codec scenario: 2 deployed contracts, 2 storage-diff entries of
2 keys each, 2 declared classes, 1 deprecated class, 2 nonces, 2 replaced
classes (the shape of the `encode_decode_works` test). -/
def scenarioThinStateDiff : ThinStateDiff where
  deployed_contracts := ⟨[(⟨1⟩, ⟨0⟩), (⟨3⟩, ⟨0⟩)]⟩
  storage_diffs := ⟨[(⟨13⟩, ⟨[(⟨9⟩, 1), (⟨11⟩, 12)]⟩),
                     (⟨18⟩, ⟨[(⟨14⟩, 15), (⟨16⟩, 17)]⟩)]⟩
  declared_classes := ⟨[(⟨0⟩, ⟨0⟩), (⟨2⟩, ⟨0⟩)]⟩
  deprecated_declared_classes := [⟨0⟩]
  nonces := ⟨[(⟨5⟩, ⟨0⟩), (⟨7⟩, ⟨0⟩)]⟩
  replaced_classes := ⟨[(⟨19⟩, ⟨0⟩), (⟨21⟩, ⟨0⟩)]⟩

/-- Witness for C5: the §8 scenario round-trips to an identical structure
through the concrete leaf codecs. -/
theorem thin_state_diff_roundtrip_witness :
    (addressCodec.RoundTrips ∧ classHashCodec.RoundTrips ∧
     compiledClassHashCodec.RoundTrips ∧ storageKeyCodec.RoundTrips ∧
     feltCodec.RoundTrips ∧ nonceCodec.RoundTrips ∧
     scenarioThinStateDiff.SizesFit ∧ scenarioThinStateDiff.MapsNodup) ∧
    ThinStateDiff.decode addressCodec classHashCodec compiledClassHashCodec
        storageKeyCodec feltCodec nonceCodec
        (ThinStateDiff.encode addressCodec classHashCodec compiledClassHashCodec
          storageKeyCodec feltCodec nonceCodec scenarioThinStateDiff ++ []) =
      some (scenarioThinStateDiff, []) :=
  ⟨⟨addressCodec_roundTrips, classHashCodec_roundTrips,
    compiledClassHashCodec_roundTrips, storageKeyCodec_roundTrips,
    feltCodec_roundTrips, nonceCodec_roundTrips, by decide, by decide⟩,
   thin_state_diff_roundtrip addressCodec classHashCodec compiledClassHashCodec
     storageKeyCodec feltCodec nonceCodec scenarioThinStateDiff []
     addressCodec_roundTrips classHashCodec_roundTrips
     compiledClassHashCodec_roundTrips storageKeyCodec_roundTrips
     feltCodec_roundTrips nonceCodec_roundTrips (by decide) (by decide)⟩

/-! ## Entry-point offset serde (src/deprecated_contract_class.rs) -/

/-- The value of a hexadecimal digit character, lower or upper case
(the digit test of `u64::from_str_radix(_, 16)`). -/
def hexDigitVal (c : Char) : Option Nat :=
  if '0' ≤ c ∧ c ≤ '9' then some (c.toNat - 48)
  else if 'a' ≤ c ∧ c ≤ 'f' then some (c.toNat - 87)
  else if 'A' ≤ c ∧ c ≤ 'F' then some (c.toNat - 55)
  else none

/-- The digit loop of `u64::from_str_radix(_, 16)`: fold the digits into the
accumulator, failing on a non-digit character or on `u64` overflow. -/
def parseHexAux : List Char → Nat → Option Nat
  | [], acc => some acc
  | c :: cs, acc =>
    match hexDigitVal c with
    | none => none
    | some d =>
      if acc * 16 + d < 2 ^ 64 then parseHexAux cs (acc * 16 + d) else none

/-- `u64::from_str_radix(s, 16)`: an optional leading plus sign, then one or
more hex digits; errors on an empty digit string, an invalid digit, or
overflow. -/
def fromStrRadix16 (s : String) : Option Nat :=
  let cs := if s.data.head? = some '+' then s.data.tail else s.data
  if cs.isEmpty then none else parseHexAux cs 0

/-- `str::trim_start_matches("0x")`: repeatedly removes a leading `0x`. -/
def trimAll0x : List Char → List Char
  | [] => []
  | [c] => [c]
  | c1 :: c2 :: t =>
    if c1 = '0' ∧ c2 = 'x' then trimAll0x t else c1 :: c2 :: t

/-- `hex_string_try_into_u64` (src/deprecated_contract_class.rs lines
297-299): strip the leading `0x` occurrences and parse the remainder
base 16. -/
def hex_string_try_into_u64 (s : String) : Option Nat :=
  fromStrRadix16 (String.mk (trimAll0x s.data))

/-- `serde_json::Number::as_u64`: integers in `u64` range only. -/
def jsonNumberAsU64 (n : Int) : Option Nat :=
  if 0 ≤ n ∧ n < 2 ^ 64 then some n.toNat else none

/-- `number_or_string` (src/deprecated_contract_class.rs lines 286-295): a
JSON number must fit `u64`, a JSON string goes through
`hex_string_try_into_u64`, any other JSON value is rejected. -/
def number_or_string (v : Json) : Option Nat :=
  match v with
  | .numVal n => jsonNumberAsU64 n
  | .strVal s => hex_string_try_into_u64 s
  | _ => none

/-- The lowercase hex digit character of `d < 16` (a `{:x}` digit). -/
def hexDigitChar (d : Nat) : Char :=
  if d < 10 then Char.ofNat (48 + d) else Char.ofNat (87 + d)

/-- Fuelled most-significant-first hex digit emitter (the fuel argument only
bounds the recursion; `n` itself is always enough). -/
def natHexAux : Nat → Nat → List Char → List Char
  | 0, _, acc => acc
  | fuel + 1, n, acc =>
    if n = 0 then acc
    else natHexAux fuel (n / 16) (hexDigitChar (n % 16) :: acc)

/-- The hex digits of `n`, most significant first; empty for 0. -/
def hexDigitsOf (n : Nat) : List Char := natHexAux n n []

/-- `u64_to_hex` (src/deprecated_contract_class.rs lines 301-306): the
`format!("{:#x}")` rendering — `0x` followed by the minimal lowercase hex
digits. -/
def u64_to_hex (n : Nat) : String :=
  String.mk ('0' :: 'x' :: (if n = 0 then ['0'] else hexDigitsOf n))

/-- The serde `Serialize` of `EntryPointOffset` (src/deprecated_contract_class.rs
line 276): always the hex-string form. -/
def entry_point_offset_serialize (o : EntryPointOffset) : Json :=
  .strVal (u64_to_hex o.offset)

/-- The serde `Deserialize` of `EntryPointOffset` (src/deprecated_contract_class.rs
line 276): `number_or_string`. -/
def entry_point_offset_deserialize (v : Json) : Option EntryPointOffset :=
  (number_or_string v).map (fun n => ⟨n⟩)

theorem natHexAux_eq (n : Nat) : ∀ fuel acc, n ≤ fuel →
    natHexAux fuel n acc = hexDigitsOf n ++ acc := by
  induction n using Nat.strong_induction_on with
  | _ n ih =>
    intro fuel acc hle
    match fuel with
    | 0 =>
      have hn0 : n = 0 := by omega
      subst hn0
      simp [natHexAux, hexDigitsOf]
    | f + 1 =>
      by_cases h0 : n = 0
      · subst h0
        simp [natHexAux, hexDigitsOf]
      · have hstep : natHexAux (f + 1) n acc =
            natHexAux f (n / 16) (hexDigitChar (n % 16) :: acc) := by
          simp [natHexAux, h0]
        have hmain := ih (n / 16) (by omega) f (hexDigitChar (n % 16) :: acc)
          (by omega)
        have hdig : hexDigitsOf n =
            hexDigitsOf (n / 16) ++ [hexDigitChar (n % 16)] := by
          obtain ⟨m, hm⟩ : ∃ m, n = m + 1 := ⟨n - 1, by omega⟩
          subst hm
          show natHexAux (m + 1) (m + 1) [] = _
          have h1 : natHexAux (m + 1) (m + 1) [] =
              natHexAux m ((m + 1) / 16) [hexDigitChar ((m + 1) % 16)] := by
            simp [natHexAux]
          rw [h1, ih ((m + 1) / 16) (by omega) m _ (by omega)]
        rw [hstep, hmain, hdig, List.append_assoc, List.singleton_append]

theorem hexDigitsOf_unfold (n : Nat) (h : n ≠ 0) :
    hexDigitsOf n = hexDigitsOf (n / 16) ++ [hexDigitChar (n % 16)] := by
  obtain ⟨m, hm⟩ : ∃ m, n = m + 1 := ⟨n - 1, by omega⟩
  subst hm
  show natHexAux (m + 1) (m + 1) [] = _
  have h1 : natHexAux (m + 1) (m + 1) [] =
      natHexAux m ((m + 1) / 16) [hexDigitChar ((m + 1) % 16)] := by
    simp [natHexAux]
  rw [h1, natHexAux_eq ((m + 1) / 16) m _ (by omega)]

theorem hexDigitVal_hexDigitChar (d : Nat) (h : d < 16) :
    hexDigitVal (hexDigitChar d) = some d := by
  interval_cases d <;> decide

theorem hexDigitsOf_valid (n : Nat) :
    ∀ c ∈ hexDigitsOf n, (hexDigitVal c).isSome := by
  induction n using Nat.strong_induction_on with
  | _ n ih =>
    by_cases h0 : n = 0
    · subst h0
      intro c hc
      simp [hexDigitsOf, natHexAux] at hc
    · intro c hc
      rw [hexDigitsOf_unfold n h0] at hc
      rcases List.mem_append.mp hc with hc | hc
      · exact ih (n / 16) (by omega) c hc
      · have hcv : c = hexDigitChar (n % 16) := by simpa using hc
        subst hcv
        rw [hexDigitVal_hexDigitChar _ (by omega)]
        rfl

theorem parseHexAux_append (xs ys : List Char) :
    ∀ acc, parseHexAux (xs ++ ys) acc =
      match parseHexAux xs acc with
      | none => none
      | some a => parseHexAux ys a := by
  induction xs with
  | nil => intro acc; simp [parseHexAux]
  | cons c t ih =>
    intro acc
    simp only [List.cons_append, parseHexAux]
    cases hc : hexDigitVal c with
    | none => rfl
    | some d =>
      dsimp only
      by_cases hb : acc * 16 + d < 2 ^ 64
      · rw [if_pos hb, if_pos hb]
        exact ih (acc * 16 + d)
      · rw [if_neg hb, if_neg hb]

theorem parseHexAux_hexDigitsOf (n : Nat) : ∀ acc : Nat,
    acc * 16 ^ (hexDigitsOf n).length + n < 2 ^ 64 →
    parseHexAux (hexDigitsOf n) acc =
      some (acc * 16 ^ (hexDigitsOf n).length + n) := by
  induction n using Nat.strong_induction_on with
  | _ n ih =>
    intro acc hb
    by_cases h0 : n = 0
    · subst h0
      simp [hexDigitsOf, natHexAux, parseHexAux]
    · rw [hexDigitsOf_unfold n h0] at hb ⊢
      rw [parseHexAux_append]
      simp only [List.length_append, List.length_singleton] at hb ⊢
      have hexp : acc * 16 ^ ((hexDigitsOf (n / 16)).length + 1) =
          acc * 16 ^ (hexDigitsOf (n / 16)).length * 16 := by ring
      rw [hexp] at hb ⊢
      have hdivb : acc * 16 ^ (hexDigitsOf (n / 16)).length + n / 16 < 2 ^ 64 := by
        omega
      rw [ih (n / 16) (by omega) acc hdivb]
      have hd := hexDigitVal_hexDigitChar (n % 16) (by omega)
      simp only [parseHexAux, hd]
      rw [if_pos (by omega)]
      congr 1
      omega

theorem trimAll0x_no_x (l : List Char) (h : ∀ c ∈ l, c ≠ 'x') :
    trimAll0x l = l := by
  match l with
  | [] => rfl
  | [c] => rfl
  | c1 :: c2 :: t =>
    have h2 : c2 ≠ 'x' := h c2 (by simp)
    simp only [trimAll0x]
    rw [if_neg (by intro hx; exact h2 hx.2)]

theorem hexDigitsOf_ne_nil (n : Nat) (h : n ≠ 0) : hexDigitsOf n ≠ [] := by
  rw [hexDigitsOf_unfold n h]
  simp

theorem hex_roundtrip (v : Nat) (h : v < 2 ^ 64) :
    hex_string_try_into_u64 (u64_to_hex v) = some v := by
  by_cases h0 : v = 0
  · subst h0
    rfl
  · unfold hex_string_try_into_u64 u64_to_hex
    have hdata : (String.mk ('0' :: 'x' ::
        (if v = 0 then ['0'] else hexDigitsOf v))).data =
        '0' :: 'x' :: hexDigitsOf v := by
      simp [h0]
    rw [hdata]
    have hnox : ∀ c ∈ hexDigitsOf v, c ≠ 'x' := by
      intro c hc hcx
      have := hexDigitsOf_valid v c hc
      rw [hcx] at this
      simp [hexDigitVal] at this
    have htrim : trimAll0x ('0' :: 'x' :: hexDigitsOf v) = hexDigitsOf v := by
      have h1 : trimAll0x ('0' :: 'x' :: hexDigitsOf v) =
          trimAll0x (hexDigitsOf v) := by
        simp [trimAll0x]
      rw [h1]
      exact trimAll0x_no_x _ hnox
    rw [htrim]
    unfold fromStrRadix16
    obtain ⟨c, t, hct⟩ : ∃ c t, hexDigitsOf v = c :: t := by
      cases hd : hexDigitsOf v with
      | nil => exact absurd hd (hexDigitsOf_ne_nil v h0)
      | cons c t => exact ⟨c, t, rfl⟩
    have hcp : c ≠ '+' := by
      intro hcp
      have := hexDigitsOf_valid v c (by rw [hct]; simp)
      rw [hcp] at this
      simp [hexDigitVal] at this
    have hhead : (String.mk (hexDigitsOf v)).data.head? ≠ some '+' := by
      simp [hct, hcp]
    rw [if_neg hhead]
    have hne : ¬(String.mk (hexDigitsOf v)).data.isEmpty := by
      simp [hct]
    rw [if_neg hne]
    have := parseHexAux_hexDigitsOf v 0 (by simpa using h)
    simpa using this

/-- C8: entry-point offsets deserialize from both a plain JSON number and a
hex string (the number 2 gives offset 2, the string "0x7b" gives 123),
always serialize to the hex-string form (123 gives "0x7b"), and every `u64`
offset round-trips through serialize-then-deserialize despite the two
directions using different representations. -/
theorem entry_point_offset_serde (v : Nat) (h : v < 2 ^ 64) :
    entry_point_offset_deserialize (.numVal 2) = some ⟨2⟩ ∧
    entry_point_offset_deserialize (.strVal "0x7b") = some ⟨123⟩ ∧
    entry_point_offset_serialize ⟨123⟩ = .strVal "0x7b" ∧
    entry_point_offset_deserialize (entry_point_offset_serialize ⟨v⟩) =
      some ⟨v⟩ := by
  refine ⟨by decide, by decide, rfl, ?_⟩
  show (number_or_string (.strVal (u64_to_hex v))).map (fun n => (⟨n⟩ : EntryPointOffset)) =
    some ⟨v⟩
  show (hex_string_try_into_u64 (u64_to_hex v)).map
    (fun n => (⟨n⟩ : EntryPointOffset)) = some ⟨v⟩
  rw [hex_roundtrip v h]
  rfl

/-- Witness for C8 at the offset 123. -/
theorem entry_point_offset_serde_witness :
    123 < 2 ^ 64 ∧
    (entry_point_offset_deserialize (.numVal 2) = some ⟨2⟩ ∧
     entry_point_offset_deserialize (.strVal "0x7b") = some ⟨123⟩ ∧
     entry_point_offset_serialize ⟨123⟩ = .strVal "0x7b" ∧
     entry_point_offset_deserialize (entry_point_offset_serialize ⟨123⟩) =
       some ⟨123⟩) :=
  ⟨by decide, entry_point_offset_serde 123 (by decide)⟩

/-! ## Claim C9: what strings the offset parser accepts -/

/-- Strip one optional leading plus sign (the sign handling of
`from_str_radix`). -/
def stripPlus (l : List Char) : List Char :=
  if l.head? = some '+' then l.tail else l

/-- The base-16 valuation of a digit list, most significant first. -/
def hexVal (l : List Char) : Nat :=
  l.foldl (fun a c => a * 16 + (hexDigitVal c).getD 0) 0

/-- The claim's reading of the parser: strip at most one leading `0x`, then
parse the remainder in base 16 (with its sign handling), erring on any
non-hex-digit character. -/
def hexStringSpecOneStrip (s : String) : Option Nat :=
  let cs := if s.data.take 2 = ['0', 'x'] then s.data.drop 2 else s.data
  if cs.isEmpty then none else parseHexAux cs 0

theorem parseHexAux_sound (cs : List Char) : ∀ acc n, acc < 2 ^ 64 →
    parseHexAux cs acc = some n →
    (∀ c ∈ cs, (hexDigitVal c).isSome) ∧
    n = cs.foldl (fun a c => a * 16 + (hexDigitVal c).getD 0) acc ∧
    n < 2 ^ 64 := by
  induction cs with
  | nil =>
    intro acc n ha h
    simp only [parseHexAux, Option.some.injEq] at h
    subst h
    exact ⟨by simp, by simp, ha⟩
  | cons c t ih =>
    intro acc n ha h
    simp only [parseHexAux] at h
    cases hc : hexDigitVal c with
    | none =>
      rw [hc] at h
      simp at h
    | some d =>
      rw [hc] at h
      dsimp only at h
      by_cases hb : acc * 16 + d < 2 ^ 64
      · rw [if_pos hb] at h
        obtain ⟨hvalid, hval, hlt⟩ := ih (acc * 16 + d) n hb h
        refine ⟨?_, ?_, hlt⟩
        · intro x hx
          rcases List.mem_cons.mp hx with hx | hx
          · subst hx
            rw [hc]
            rfl
          · exact hvalid x hx
        · simp only [List.foldl_cons, hc, Option.getD_some]
          exact hval
      · rw [if_neg hb] at h
        simp at h

/-- C9 (amended): every string the offset parser accepts is interpreted as
hexadecimal whether or not it begins with `0x` — all leading `0x`
repetitions are stripped, an optional plus sign is accepted, and the
non-empty remainder must consist solely of hex digits (a non-hex digit
errors), the result being the remainder's base-16 value, below `2^64`;
in particular "10" decodes to 16, not 10. -/
theorem hex_string_hex_interpretation (s : String) (n : Nat)
    (h : hex_string_try_into_u64 s = some n) :
    (∀ c ∈ stripPlus (trimAll0x s.data), (hexDigitVal c).isSome) ∧
    stripPlus (trimAll0x s.data) ≠ [] ∧
    n = hexVal (stripPlus (trimAll0x s.data)) ∧ n < 2 ^ 64 := by
  unfold hex_string_try_into_u64 fromStrRadix16 at h
  have hdata : (String.mk (trimAll0x s.data)).data = trimAll0x s.data := rfl
  rw [hdata] at h
  have hcs : (if (trimAll0x s.data).head? = some '+' then (trimAll0x s.data).tail
      else trimAll0x s.data) = stripPlus (trimAll0x s.data) := rfl
  rw [hcs] at h
  by_cases he : (stripPlus (trimAll0x s.data)).isEmpty
  · rw [if_pos he] at h
    simp at h
  · rw [if_neg he] at h
    obtain ⟨hvalid, hval, hlt⟩ :=
      parseHexAux_sound (stripPlus (trimAll0x s.data)) 0 n (by norm_num) h
    refine ⟨hvalid, ?_, hval, hlt⟩
    intro hnil
    rw [hnil] at he
    simp at he

/-- Witness for the amended C9 at the undecorated string "10", which decodes
to 16 — hexadecimal, not decimal. -/
theorem hex_string_hex_interpretation_witness :
    hex_string_try_into_u64 "10" = some 16 ∧
    ((∀ c ∈ stripPlus (trimAll0x "10".data), (hexDigitVal c).isSome) ∧
     stripPlus (trimAll0x "10".data) ≠ [] ∧
     16 = hexVal (stripPlus (trimAll0x "10".data)) ∧ 16 < 2 ^ 64) :=
  ⟨by decide, hex_string_hex_interpretation "10" 16 (by decide)⟩

/-- C9 counterexample: the claim says only a single leading `0x` prefix is
stripped and a remaining non-hex digit errors, so "0x0x10" (whose remainder
after one strip, "0x10", contains the non-hex digit 'x') must error; the
code strips `0x` repeatedly and accepts it as 16. -/
theorem hex_string_single_strip_counterexample :
    hex_string_try_into_u64 "0x0x10" = some 16 ∧
    hexStringSpecOneStrip "0x0x10" = none := by
  exact ⟨by decide, by decide⟩

/-! ## Claim C10: `GasPrice` and its 16-byte hex wire form (src/block.rs) -/

/-- `PrefixedBytesAsHex<16>` (src/serde_utils, external shape): the 16-byte
big-endian wire form of a gas price, as its byte list. -/
structure PrefixedBytesAsHex16 where
  bytes : List Nat
deriving DecidableEq

/-- `GasPrice` (src/block.rs line 199): a `u128` newtype. -/
structure GasPrice where
  price : Nat
deriving DecidableEq

/-- `u128::to_be_bytes`: the 16 big-endian base-256 digits. -/
def u128ToBEBytes (n : Nat) : List Nat := (toLEBytes 16 n).reverse

/-- `u128::from_be_bytes`. -/
def u128FromBEBytes (l : List Nat) : Nat := fromLEBytes l.reverse

/-- `From<PrefixedBytesAsHex<16>> for GasPrice` (src/block.rs lines
201-205). -/
def GasPrice.from_bytes (v : PrefixedBytesAsHex16) : GasPrice :=
  ⟨u128FromBEBytes v.bytes⟩

/-- `From<GasPrice> for PrefixedBytesAsHex<16>` (src/block.rs lines
207-211). -/
def GasPrice.to_bytes (g : GasPrice) : PrefixedBytesAsHex16 :=
  ⟨u128ToBEBytes g.price⟩

/-- C10: the two conversions between `GasPrice` and its 16-byte big-endian
wire form are mutually inverse — every `u128` value survives the round trip
through the bytes, and every well-formed 16-byte array survives the round
trip through the value. -/
theorem gas_price_bytes_roundtrip (n : Nat) (hn : n < 2 ^ 128)
    (l : List Nat) (hl : l.length = 16) (hb : ∀ b ∈ l, b < 256) :
    GasPrice.from_bytes (GasPrice.to_bytes ⟨n⟩) = ⟨n⟩ ∧
    GasPrice.to_bytes (GasPrice.from_bytes ⟨l⟩) = ⟨l⟩ := by
  constructor
  · show GasPrice.mk (u128FromBEBytes (u128ToBEBytes n)) = ⟨n⟩
    unfold u128FromBEBytes u128ToBEBytes
    rw [List.reverse_reverse]
    rw [fromLEBytes_toLEBytes 16 n
      (by calc n < 2 ^ 128 := hn
        _ = 256 ^ 16 := by norm_num)]
  · show PrefixedBytesAsHex16.mk (u128ToBEBytes (u128FromBEBytes l)) = ⟨l⟩
    unfold u128ToBEBytes u128FromBEBytes
    have hlr : l.reverse.length = 16 := by simp [hl]
    have hbr : ∀ b ∈ l.reverse, b < 256 :=
      fun b hb2 => hb b (List.mem_reverse.mp hb2)
    have hback := toLEBytes_fromLEBytes l.reverse hbr
    rw [hlr] at hback
    rw [hback, List.reverse_reverse]

/-- Witness for C10 at the price 300 and the big-endian bytes of 7. -/
theorem gas_price_bytes_roundtrip_witness :
    (300 < 2 ^ 128 ∧ (List.replicate 15 0 ++ [7]).length = 16 ∧
     (∀ b ∈ List.replicate 15 0 ++ [7], b < 256)) ∧
    (GasPrice.from_bytes (GasPrice.to_bytes ⟨300⟩) = ⟨300⟩ ∧
     GasPrice.to_bytes (GasPrice.from_bytes ⟨List.replicate 15 0 ++ [7]⟩) =
       ⟨List.replicate 15 0 ++ [7]⟩) :=
  ⟨⟨by decide, by decide, by decide⟩,
   gas_price_bytes_roundtrip 300 (by decide) (List.replicate 15 0 ++ [7])
     (by decide) (by decide)⟩

end StarknetApi
